import Mathlib

/-!
Verification of the dependency-injection container in `src/di.h` / `src/di.cpp`
(namespace `di`, classes `BindingsState`, `ScopeState`, `CycleChecker`,
`ScopeStack`, `ScopeGuard`, `Scope`).

The C++ code is shallowly embedded as follows.

* `std::type_index` values become `Nat` identifiers: interface types are `Nat`,
  implementation types are `Nat`, tag types are the inductive `Tag` below, and
  the synthetic `typeid(TaggedType<Tag, TInterface>)` becomes the pair
  `(tag name, interface id) : Nat × Nat`.
* `std::unordered_map` becomes an association list with unique keys; `m[k] = v`
  is `insertA`, `m.find(k)` is `lookupA`, `m.erase(k)` is `List.erase` on the
  key list (for the cycle checker's set).  Where the C++ code observes the
  map's unspecified iteration order (`BindingsState::registerAtScope`), the
  iteration order is an explicit parameter, constrained only to enumerate the
  same entries (`IterOf` below).
* A factory thunk (`ImplData::factory`) is modelled by the data that determines
  its observable behaviour: the list of `(Tag, interface)` service references
  the produced implementation resolves while it is being constructed (its
  members of type `di::ServiceRef`, resolved in order), and a predicate saying
  at which global factory-invocation count the user code throws.  Each
  successful invocation returns a fresh object identity drawn from a counter
  `nextObj`, modelling `std::make_shared` returning a brand-new object.
* C++ exceptions become an `Except Err Nat` result paired with the post-state
  (the `ScopeState` object survives the unwinding, so the state is always
  returned).
-/

namespace DI

/-- Association-list lookup, modelling `std::unordered_map::find`. -/
def lookupA {κ α : Type} [DecidableEq κ] : List (κ × α) → κ → Option α
  | [], _ => none
  | (k0, v0) :: rest, k => if k = k0 then some v0 else lookupA rest k

/-- Association-list write, modelling `m[k] = v` / `emplace` into an absent
slot: overwrites in place when the key is present, appends otherwise. -/
def insertA {κ α : Type} [DecidableEq κ] : List (κ × α) → κ → α → List (κ × α)
  | [], k, v => [(k, v)]
  | (k0, v0) :: rest, k, v =>
    if k = k0 then (k0, v) :: rest else (k0, v0) :: insertA rest k v

/-- Lifetime tags: `di::tags::Exclusive` and everything else (`tags::Shared`
and user tags), identified by a `Nat` name. -/
inductive Tag where
  | exclusive : Tag
  | named : Nat → Tag
deriving DecidableEq, Repr

/-- Error kinds thrown by the container (`std::runtime_error` messages in the
source), plus `fuelOut`, an artifact of the bounded-recursion embedding. -/
inductive Err where
  | unbound : Err
  | cycle : Err
  | factoryFailure : Err
  | fuelOut : Err
  | mismatched : Err
  | poppedEmpty : Err
  | noActiveScope : Err
deriving DecidableEq, Repr

/-- The observable behaviour of one bound factory (`di::detail::ImplData`):
the service references the implementation resolves during its construction,
and the invocation counts at which the user's constructor throws. -/
structure ImplData where
  deps : List (Tag × Nat)
  failsWhen : Nat → Bool

/-- Model of `di::detail::ScopeState`: the instance cache `serviceInstances_`, the
flattened factory table `serviceImpls_`, the cycle checker's `activeCtors_`
set, plus two counters that model the outside world: `nextObj` allocates
object identities and `calls` counts factory invocations. -/
structure ScopeState where
  serviceInstances : List ((Nat × Nat) × Nat)
  serviceImpls : List (Nat × ImplData)
  activeCtors : List (Nat × Nat)
  nextObj : Nat
  calls : Nat

/-- Resolve a list of dependencies in order with resolver `f`, stopping at the
first error: the member `ServiceRef`s of an implementation initializing in
declaration order. -/
def resolveSeq (f : ScopeState → Tag × Nat → Except Err Nat × ScopeState) :
    ScopeState → List (Tag × Nat) → Except Err Unit × ScopeState
  | st, [] => (.ok (), st)
  | st, d :: rest =>
    match f st d with
    | (.error e, st1) => (.error e, st1)
    | (.ok _, st1) => resolveSeq f st1 rest

/-- One invocation of `factory()`: construct the dependencies, then either
throw (user failure) or return a fresh object identity. -/
def invokeFactory (f : ScopeState → Tag × Nat → Except Err Nat × ScopeState)
    (st : ScopeState) (impl : ImplData) : Except Err Nat × ScopeState :=
  match resolveSeq f st impl.deps with
  | (.error e, st1) => (.error e, st1)
  | (.ok _, st1) =>
    if impl.failsWhen st1.calls then
      (.error .factoryFailure, { st1 with calls := st1.calls + 1 })
    else
      (.ok st1.nextObj, { st1 with nextObj := st1.nextObj + 1, calls := st1.calls + 1 })

/-- The write phase of `ScopeState::getService` (the `unique_lock` block):
re-check the cache, return the winning entry if one appeared, otherwise
insert the newly constructed instance. -/
def writePhase (st : ScopeState) (k : Nat × Nat) (inst : Nat) :
    Except Err Nat × ScopeState :=
  match lookupA st.serviceInstances k with
  | some w => (.ok w, st)
  | none => (.ok inst, { st with serviceInstances := insertA st.serviceInstances k inst })

/-- The shared/user-tag path of `ScopeState::getService`, from the read phase
on: the shared-lock cache check, the cycle-checker guard
(`CycleChecker::Guard`, which throws if the id is active, otherwise inserts
it), factory invocation, the write phase, and the guard's destructor
(`List.erase` of the id) on both the success path and the unwinding path.
The resolver `f` is the recursive re-entry used by dependencies. -/
def getServiceTagged (f : ScopeState → Tag × Nat → Except Err Nat × ScopeState)
    (st : ScopeState) (iface n : Nat) (impl : ImplData) : Except Err Nat × ScopeState :=
  match lookupA st.serviceInstances (n, iface) with
  | some v => (.ok v, st)
  | none =>
    if (n, iface) ∈ st.activeCtors then (.error .cycle, st)
    else
      match invokeFactory f { st with activeCtors := (n, iface) :: st.activeCtors } impl with
      | (.error e, st2) =>
        (.error e, { st2 with activeCtors := st2.activeCtors.erase (n, iface) })
      | (.ok inst, st2) =>
        ((writePhase st2 (n, iface) inst).1,
          { (writePhase st2 (n, iface) inst).2 with
              activeCtors := (writePhase st2 (n, iface) inst).2.activeCtors.erase (n, iface) })

/-- Model of `ScopeState::getService<TInterface, Tag>`, with recursion depth bounded by
`fuel`.  Mirrors the source: unbound check, then the `Exclusive`
short-circuit (`factory()` and nothing else), otherwise the tagged-instance
protocol `getServiceTagged`. -/
def getService : Nat → ScopeState → Nat → Tag → Except Err Nat × ScopeState
  | 0, st, _, _ => (.error .fuelOut, st)
  | fuel + 1, st, iface, tag =>
    match lookupA st.serviceImpls iface with
    | none => (.error .unbound, st)
    | some impl =>
      match tag with
      | .exclusive => invokeFactory (fun s d => getService fuel s d.2 d.1) st impl
      | .named n => getServiceTagged (fun s d => getService fuel s d.2 d.1) st iface n impl

/-! ### Binding tables and scope registration

`di::detail::BindingsState` stores `interfaceMap_ : InterfaceType -> ImplType
-> ImplData`, a nested `unordered_map`.  We keep the abstract content as a
nested association list (outer key: interface id, inner key: impl id) and keep
the registration code polymorphic in the factory payload `α`, exactly as the
C++ code is agnostic about what an `ImplData` holds. -/

/-- Content of `BindingsState::interfaceMap_`: interface id to (impl id to
factory payload).  The canonical value built by `setService` keeps keys in
first-insertion order, but nothing below depends on that order except through
an explicit `IterOf` iteration witness. -/
def Table (α : Type) : Type := List (Nat × List (Nat × α))

/-- Model of `BindingsState::setService<TInterface, TImpl>(args...)`:
`interfaceMap_[interfaceType][implType] = impl`. -/
def setService {α : Type} (t : Table α) (iface impl : Nat) (f : α) : Table α :=
  insertA t iface (insertA ((lookupA t iface).getD []) impl f)

/-- A table built by a sequence of `setService` calls `(iface, impl, payload)`,
starting from the default-constructed empty map. -/
def buildTable {α : Type} (calls : List (Nat × Nat × α)) : Table α :=
  calls.foldl (fun t c => setService t c.1 c.2.1 c.2.2) []

/-- The multiset of entries of a table: outer entries up to order, each inner
map up to order.  Two tables with the same `tableEntries` are the same
`unordered_map` state enumerated in two different ways. -/
def tableEntries {α : Type} (t : Table α) : Multiset (Nat × Multiset (Nat × α)) :=
  (t.map fun p => (p.1, (p.2 : Multiset (Nat × α))))

/-- Predicate `IterOf t o`: `o` is a possible iteration order of the nested
`unordered_map` whose content is `t`.  The C++ standard leaves the order
unspecified; it need not be insertion order. -/
def IterOf {α : Type} (t o : Table α) : Prop := tableEntries o = tableEntries t

instance {α : Type} [DecidableEq α] (t o : Table α) : Decidable (IterOf t o) :=
  inferInstanceAs (Decidable (tableEntries o = tableEntries t))

/-- Model of `BindingsState::registerAtScope`: for each `(interfaceType, implMap)` in
iteration order, for each `(implType, implData)` in iteration order, do
`scope.setServiceImpl(interfaceType, implData)`, which is
`serviceImpls_[interfaceType] = impl` (last write wins). -/
def registerAtScope {α : Type} : Table α → List (Nat × α) → List (Nat × α)
  | [], impls => impls
  | p :: rest, impls =>
    registerAtScope rest (p.2.foldl (fun acc q => insertA acc p.1 q.2) impls)

/-- The `Scope::Scope(bindings...)` constructor body: a fold-expression
calling `registerAtScope` for each binding table, left to right (C++
guarantees the order of a comma fold), each table enumerated in its own
iteration order. -/
def registerAll {α : Type} : List (Table α) → List (Nat × α) → List (Nat × α)
  | [], impls => impls
  | o :: rest, impls => registerAll rest (registerAtScope o impls)

def scopeImpls {α : Type} (os : List (Table α)) : List (Nat × α) :=
  registerAll os []

/-- All factory payloads a table binds for interface `i`, across outer entries
with key `i` (as a multiset: invariant under iteration order). -/
def factoriesFor {α : Type} (t : Table α) (i : Nat) : Multiset α :=
  ((t.map fun p => if p.1 = i then ((p.2.map Prod.snd : List α) : Multiset α) else 0)).sum

/-- The sequence of writes `serviceImpls_[i] = f` performed for interface `i`
while registering the table enumerated as `o`, in execution order. -/
def writesFor {α : Type} (o : Table α) (i : Nat) : List α :=
  o.flatMap fun p => if p.1 = i then p.2.map Prod.snd else []

/-- The last impl registered for interface `i` in the canonical (insertion
ordered) table: what §4.2 of the spec predicts survives registration. -/
def lastRegisteredFor {α : Type} (t : Table α) (i : Nat) : Option α :=
  ((lookupA t i).getD []).getLast?.map Prod.snd

/-! ### The ambient scope stack -/

/-- Model of `di::detail::ScopeStack::scopes_`: scope identities, oldest first; the
vector's `back()` is the list's last element. -/
abbrev ScopeStack : Type := List Nat

/-- Model of `ScopeStack::pop(scope)`: throw unless `scopes_.back()` is the scope being
destroyed, then `pop_back()`.  (`back()` on an empty vector is undefined
behaviour in C++; the model returns a distinguished error, unreachable in the
scenarios considered.) -/
def popScope (l : ScopeStack) (s : Nat) : Except Err ScopeStack :=
  if l.isEmpty then .error .poppedEmpty
  else if l.getLast? = some s then .ok l.dropLast else .error .mismatched

/-- Destroy the scopes listed in `order`, in order, stopping at the first
error (`std::terminate`, in effect, since the throw leaves a destructor). -/
def popSeq (l : ScopeStack) : List Nat → Except Err ScopeStack
  | [] => .ok l
  | s :: rest =>
    match popScope l s with
    | .error e => .error e
    | .ok l1 => popSeq l1 rest

/-! ### Construction/destruction micro-events

To talk about "every moment" of a scope's lifetime we record the micro-steps
of `Scope::Scope` and `Scope::~Scope` as events.  Member initializers run
before the constructor body, so `guard_{globalScopeStack, state_}` (which
calls `ScopeStack::push`) precedes every `registerAtScope` call of the body;
member destructors run after the destructor body, `guard_` (declared last)
first, so the pop is the first destruction step after the body. -/

inductive Ev where
  | push : Nat → Ev
  | register : Nat → Nat → Ev
  | ctorRet : Nat → Ev
  | dtorBegin : Nat → Ev
  | pop : Nat → Ev
deriving DecidableEq, Repr

/-- The events of `Scope::Scope(t₁, ..., tₙ)` for scope identity `s`:
the guard pushes first, then the body registers each table, then the
constructor returns. -/
def ctorEvents (s : Nat) (ts : List Nat) : List Ev :=
  Ev.push s :: (ts.map (Ev.register s) ++ [Ev.ctorRet s])

/-- The events of `Scope::~Scope` for scope identity `s`. -/
def dtorEvents (s : Nat) : List Ev :=
  [Ev.dtorBegin s, Ev.pop s]

/-- A single-threaded straight-line program over scopes: each block is one
complete constructor or destructor execution. -/
inductive Blk where
  | ctor : Nat → List Nat → Blk
  | dtor : Nat → Blk
deriving DecidableEq, Repr

def blkEvents : Blk → List Ev
  | .ctor s ts => ctorEvents s ts
  | .dtor s => dtorEvents s

def traceOf (bs : List Blk) : List Ev :=
  bs.flatMap blkEvents

/-- How one event changes the real stack (`ScopeStack::scopes_`): `push`
appends, `pop` removes the matching tail; registration and the pure
constructor/destructor boundaries do not touch it. -/
def stackStep (l : List Nat) (e : Ev) : List Nat :=
  match e with
  | .push s => l ++ [s]
  | .pop s => if l.getLast? = some s then l.dropLast else l
  | _ => l

/-- The stack contents after a sequence of events. -/
def stackOf (evs : List Ev) : ScopeStack :=
  evs.foldl stackStep []

/-- How one event changes the stack the claim describes: a scope joins when
its constructor returns and leaves when its destructor starts. -/
def specStep (l : List Nat) (e : Ev) : List Nat :=
  match e with
  | .ctorRet s => l ++ [s]
  | .dtorBegin s => l.filter (fun x => x ≠ s)
  | _ => l

/-- The stack the claim predicts: scopes whose constructor has returned and
whose destructor has not yet started, in construction order. -/
def specStack (evs : List Ev) : List Nat :=
  evs.foldl specStep []

/-- A well-formed single-threaded program: a scope identity is never pushed
twice, and only the innermost (most recently constructed) live scope is
destroyed.  `l` is the stack of live scopes, oldest first. -/
def validBlks : List Blk → List Nat → Bool
  | [], _ => true
  | .ctor s _ :: rest, l => !(l.contains s) && validBlks rest (l ++ [s])
  | .dtor s :: rest, l =>
    match l.getLast? with
    | some x => x == s && validBlks rest l.dropLast
    | none => false

/-! ### Whole-scope construction and operation runs -/

/-- The `ScopeState` of a freshly constructed `di::Scope` whose binding tables
were enumerated as `os`: empty instance cache, flattened impls, empty cycle
checker. -/
def mkScopeState (os : List (Table ImplData)) : ScopeState :=
  { serviceInstances := [], serviceImpls := scopeImpls os,
    activeCtors := [], nextObj := 0, calls := 0 }

/-- One top-level container operation: a `ServiceRef` construction resolving
`(iface, tag)` with the given recursion budget. -/
structure Op where
  fuel : Nat
  iface : Nat
  tag : Tag

/-- Run a sequence of resolutions against a scope, threading the state;
errors unwind to the caller of each `ServiceRef` and the program continues. -/
def runOps (ops : List Op) (st : ScopeState) : ScopeState :=
  ops.foldl (fun s op => (getService op.fuel s op.iface op.tag).2) st

/-! ### Concrete fixtures

Small concrete scopes used to evaluate the theorems below on closed inputs:
an implementation with no dependencies that never fails, bound to interface
`0` under implementation id `10`, and a variant whose factory fails on its
first invocation only. -/

def implPlain : ImplData := { deps := [], failsWhen := fun _ => false }

def implOnceFailing : ImplData := { deps := [], failsWhen := fun t => t == 0 }

def stW : ScopeState := mkScopeState [[(0, [(10, implPlain)])]]

/-- State `stW` after one successful shared resolution of interface `0`. -/
def stW1 : ScopeState :=
  { serviceInstances := [((0, 0), 0)], serviceImpls := [(0, implPlain)],
    activeCtors := [], nextObj := 1, calls := 1 }

/-- State `stW` after one successful exclusive resolution. -/
def stWe1 : ScopeState := { stW with nextObj := 1, calls := 1 }

/-- State `stW` after two successful exclusive resolutions. -/
def stWe2 : ScopeState := { stW with nextObj := 2, calls := 2 }

/-- State `stW` with the tagged id `(0, 0)` marked as currently under
construction. -/
def stCyc : ScopeState := { stW with activeCtors := [(0, 0)] }

def stF : ScopeState := mkScopeState [[(0, [(10, implOnceFailing)])]]

/-- State `stF` after its factory failed once. -/
def stF1 : ScopeState := { stF with calls := 1 }

/-- State of `stF` mid-resolution of `(0, 0)`, right after the failing
factory invocation and before the cycle guard unwinds. -/
def stFmid : ScopeState := { stF with activeCtors := [(0, 0)], calls := 1 }

/-- State `stF1` after the retried resolution succeeded. -/
def stF2 : ScopeState :=
  { stF with serviceInstances := insertA stF.serviceInstances (0, 0) stF.nextObj,
             nextObj := stF.nextObj + 1, calls := stF.calls + 2 }

/-- A binding table with a single `setService` call: interface `5`,
implementation `100`, factory payload `7`. -/
def tOne : Table Nat := buildTable [(5, 100, 7)]

/-- A binding table where interface `5` is bound twice: first to
implementation `100` (payload `0`), then to implementation `101`
(payload `1`). -/
def tTwo : Table Nat := buildTable [(5, 100, 0), (5, 101, 1)]

/-- An iteration order of `tTwo` in which the nested `unordered_map`
enumerates the two implementations in the reverse of registration order —
an order the C++ standard permits. -/
def oTwo : Table Nat := [(5, [(101, 1), (100, 0)])]

/-! ## Basic lemmas about the map model -/

theorem lookupA_insertA {κ α : Type} [DecidableEq κ] (l : List (κ × α)) (k j : κ) (v : α) :
    lookupA (insertA l k v) j = if j = k then some v else lookupA l j := by
  induction l with
  | nil => simp [insertA, lookupA]
  | cons p rest ih =>
    obtain ⟨k0, v0⟩ := p
    by_cases hk : k = k0
    · subst hk
      by_cases hj : j = k <;> simp [insertA, lookupA, hj]
    · by_cases hj : j = k0
      · subst hj
        have hjk : ¬ j = k := fun h => hk h.symm
        simp [insertA, lookupA, hk, hjk]
      · simp [insertA, lookupA, hk, hj, ih]

/-! ## Generic preservation lemmas

The resolution loop threads a `ScopeState` through dependency construction;
the lemmas below push a state predicate through `resolveSeq` and
`invokeFactory` once it is known to be preserved by the resolver itself. -/

theorem resolveSeq_pres {P : ScopeState → Prop}
    (f : ScopeState → Tag × Nat → Except Err Nat × ScopeState)
    (hf : ∀ s d, P s → P (f s d).2) :
    ∀ ds st, P st → P (resolveSeq f st ds).2 := by
  intro ds
  induction ds with
  | nil => intro st h; simpa [resolveSeq] using h
  | cons d rest ih =>
    intro st h
    rw [resolveSeq]
    split
    · next e st1 heq =>
      have h1 := hf st d h
      rw [heq] at h1
      exact h1
    · next u st1 heq =>
      have h1 := hf st d h
      rw [heq] at h1
      exact ih st1 h1

theorem invokeFactory_pres {P : ScopeState → Prop}
    (f : ScopeState → Tag × Nat → Except Err Nat × ScopeState)
    (hf : ∀ s d, P s → P (f s d).2)
    (hstable : ∀ s v c, P s → P { s with nextObj := v, calls := c })
    (st : ScopeState) (impl : ImplData) (h : P st) :
    P (invokeFactory f st impl).2 := by
  rw [invokeFactory]
  split
  · next e st1 heq =>
    have h1 := resolveSeq_pres f hf impl.deps st h
    rw [heq] at h1
    exact h1
  · next u st1 heq =>
    have h1 := resolveSeq_pres f hf impl.deps st h
    rw [heq] at h1
    by_cases hfl : impl.failsWhen st1.calls = true
    · simp only [hfl, if_true]
      exact hstable st1 st1.nextObj (st1.calls + 1) h1
    · simp only [hfl, if_false]
      exact hstable st1 (st1.nextObj + 1) (st1.calls + 1) h1

/-! ## Invariants of `getService` -/

theorem writePhase_active (st : ScopeState) (k : Nat × Nat) (v : Nat) :
    (writePhase st k v).2.activeCtors = st.activeCtors := by
  rw [writePhase]
  split <;> rfl

theorem invokeFactory_active
    (f : ScopeState → Tag × Nat → Except Err Nat × ScopeState)
    (hf : ∀ s d, (f s d).2.activeCtors = s.activeCtors)
    (st : ScopeState) (impl : ImplData) :
    (invokeFactory f st impl).2.activeCtors = st.activeCtors :=
  invokeFactory_pres (P := fun s => s.activeCtors = st.activeCtors) f
    (fun s d hs => by
      show (f s d).2.activeCtors = st.activeCtors
      rw [hf s d]
      exact hs)
    (fun _ _ _ hs => hs) st impl rfl

theorem getServiceTagged_active
    (f : ScopeState → Tag × Nat → Except Err Nat × ScopeState)
    (hf : ∀ s d, (f s d).2.activeCtors = s.activeCtors)
    (st : ScopeState) (iface n : Nat) (impl : ImplData) :
    (getServiceTagged f st iface n impl).2.activeCtors = st.activeCtors := by
  rw [getServiceTagged]
  cases heqc : lookupA st.serviceInstances (n, iface) with
  | some v => rfl
  | none =>
    by_cases hmem : (n, iface) ∈ st.activeCtors
    · simp only [if_pos hmem]
    · simp only [if_neg hmem]
      have hinv := invokeFactory_active f hf
        { st with activeCtors := (n, iface) :: st.activeCtors } impl
      rcases heq2 : invokeFactory f
        { st with activeCtors := (n, iface) :: st.activeCtors } impl with ⟨r, st2⟩
      rw [heq2] at hinv
      cases r with
      | error e =>
        show st2.activeCtors.erase (n, iface) = st.activeCtors
        rw [hinv]
        exact List.erase_cons_head (n, iface) st.activeCtors
      | ok inst =>
        show (writePhase st2 (n, iface) inst).2.activeCtors.erase (n, iface) = st.activeCtors
        rw [writePhase_active, hinv]
        exact List.erase_cons_head (n, iface) st.activeCtors

/-- The cycle checker's set is restored by every resolution, successful or
not: each `CycleChecker::Guard` erases on destruction exactly the id it
inserted on construction. -/
theorem getService_active (fuel : Nat) :
    ∀ st i t, (getService fuel st i t).2.activeCtors = st.activeCtors := by
  induction fuel with
  | zero => intro st i t; rfl
  | succ fuel ih =>
    intro st i t
    rw [getService]
    cases heqi : lookupA st.serviceImpls i with
    | none => rfl
    | some impl =>
      cases t with
      | exclusive =>
        exact invokeFactory_active (fun s d => getService fuel s d.2 d.1)
          (fun s d => ih s d.2 d.1) st impl
      | named n =>
        exact getServiceTagged_active (fun s d => getService fuel s d.2 d.1)
          (fun s d => ih s d.2 d.1) st i n impl

theorem writePhase_instances_pres (st : ScopeState) (k j : Nat × Nat) (v w : Nat)
    (h : lookupA st.serviceInstances j = some w) :
    lookupA (writePhase st k v).2.serviceInstances j = some w := by
  rw [writePhase]
  cases heqc : lookupA st.serviceInstances k with
  | some u => exact h
  | none =>
    have hjk : j ≠ k := by
      intro hh
      rw [hh, heqc] at h
      cases h
    show lookupA (insertA st.serviceInstances k v) j = some w
    simp [lookupA_insertA, hjk, h]

theorem getServiceTagged_instances_pres (k : Nat × Nat) (v : Nat)
    (f : ScopeState → Tag × Nat → Except Err Nat × ScopeState)
    (hf : ∀ s d, lookupA s.serviceInstances k = some v →
      lookupA (f s d).2.serviceInstances k = some v)
    (st : ScopeState) (iface n : Nat) (impl : ImplData)
    (h : lookupA st.serviceInstances k = some v) :
    lookupA (getServiceTagged f st iface n impl).2.serviceInstances k = some v := by
  rw [getServiceTagged]
  cases heqc : lookupA st.serviceInstances (n, iface) with
  | some u => exact h
  | none =>
    by_cases hmem : (n, iface) ∈ st.activeCtors
    · simp only [if_pos hmem]
      exact h
    · simp only [if_neg hmem]
      have hinv := invokeFactory_pres (P := fun s => lookupA s.serviceInstances k = some v) f
        hf (fun _ _ _ hs => hs)
        { st with activeCtors := (n, iface) :: st.activeCtors } impl h
      rcases heq2 : invokeFactory f
        { st with activeCtors := (n, iface) :: st.activeCtors } impl with ⟨r, st2⟩
      rw [heq2] at hinv
      cases r with
      | error e => exact hinv
      | ok inst =>
        show lookupA (writePhase st2 (n, iface) inst).2.serviceInstances k = some v
        exact writePhase_instances_pres st2 (n, iface) k inst v hinv

/-- An entry of the instance cache survives every later resolution: the cache
is only ever extended with absent keys (`emplace` after the re-check). -/
theorem getService_instances_pres (k : Nat × Nat) (v : Nat) (fuel : Nat) :
    ∀ st i t, lookupA st.serviceInstances k = some v →
      lookupA (getService fuel st i t).2.serviceInstances k = some v := by
  induction fuel with
  | zero => intro st i t h; exact h
  | succ fuel ih =>
    intro st i t h
    rw [getService]
    cases heqi : lookupA st.serviceImpls i with
    | none => exact h
    | some impl =>
      cases t with
      | exclusive =>
        exact invokeFactory_pres (P := fun s => lookupA s.serviceInstances k = some v)
          (fun s d => getService fuel s d.2 d.1)
          (fun s d hs => ih s d.2 d.1 hs) (fun _ _ _ hs => hs) st impl h
      | named n =>
        exact getServiceTagged_instances_pres k v (fun s d => getService fuel s d.2 d.1)
          (fun s d hs => ih s d.2 d.1 hs) st i n impl h

theorem writePhase_instances_other (st : ScopeState) (k' : Nat × Nat) (v : Nat)
    (k : Nat × Nat) (hne : k ≠ k') :
    lookupA (writePhase st k' v).2.serviceInstances k = lookupA st.serviceInstances k := by
  rw [writePhase]
  cases heqc : lookupA st.serviceInstances k' with
  | some u => rfl
  | none =>
    show lookupA (insertA st.serviceInstances k' v) k = lookupA st.serviceInstances k
    simp [lookupA_insertA, hne]

theorem writePhase_nextObj (st : ScopeState) (k : Nat × Nat) (v : Nat) :
    (writePhase st k v).2.nextObj = st.nextObj := by
  rw [writePhase]
  cases lookupA st.serviceInstances k <;> rfl

/-- While a tagged id is under construction (in the cycle checker's set), no
resolution puts it into the instance cache: the only code path that inserts
it is its own write phase, and a re-entrant resolution of the id dies in the
cycle checker first. -/
theorem getServiceTagged_uncached (k : Nat × Nat)
    (f : ScopeState → Tag × Nat → Except Err Nat × ScopeState)
    (hf : ∀ s d, k ∈ s.activeCtors ∧ lookupA s.serviceInstances k = none →
      k ∈ (f s d).2.activeCtors ∧ lookupA (f s d).2.serviceInstances k = none)
    (st : ScopeState) (iface n : Nat) (impl : ImplData)
    (h : k ∈ st.activeCtors ∧ lookupA st.serviceInstances k = none) :
    k ∈ (getServiceTagged f st iface n impl).2.activeCtors ∧
      lookupA (getServiceTagged f st iface n impl).2.serviceInstances k = none := by
  rw [getServiceTagged]
  cases heqc : lookupA st.serviceInstances (n, iface) with
  | some u => exact h
  | none =>
    by_cases hmem : (n, iface) ∈ st.activeCtors
    · simp only [if_pos hmem]
      exact h
    · simp only [if_neg hmem]
      have hne : k ≠ (n, iface) := fun hh => hmem (hh ▸ h.1)
      have hinv := invokeFactory_pres
        (P := fun s => k ∈ s.activeCtors ∧ lookupA s.serviceInstances k = none) f hf
        (fun _ _ _ hs => hs)
        { st with activeCtors := (n, iface) :: st.activeCtors } impl
        ⟨List.mem_cons_of_mem _ h.1, h.2⟩
      rcases heq2 : invokeFactory f
        { st with activeCtors := (n, iface) :: st.activeCtors } impl with ⟨r, st2⟩
      rw [heq2] at hinv
      cases r with
      | error e =>
        exact ⟨(List.mem_erase_of_ne hne).mpr hinv.1, hinv.2⟩
      | ok inst =>
        constructor
        · show k ∈ (writePhase st2 (n, iface) inst).2.activeCtors.erase (n, iface)
          rw [writePhase_active]
          exact (List.mem_erase_of_ne hne).mpr hinv.1
        · show lookupA (writePhase st2 (n, iface) inst).2.serviceInstances k = none
          rw [writePhase_instances_other st2 (n, iface) inst k hne]
          exact hinv.2

theorem getService_uncached (k : Nat × Nat) (fuel : Nat) :
    ∀ st i t, k ∈ st.activeCtors → lookupA st.serviceInstances k = none →
      k ∈ (getService fuel st i t).2.activeCtors ∧
        lookupA (getService fuel st i t).2.serviceInstances k = none := by
  induction fuel with
  | zero => intro st i t h1 h2; exact ⟨h1, h2⟩
  | succ fuel ih =>
    intro st i t h1 h2
    rw [getService]
    cases heqi : lookupA st.serviceImpls i with
    | none => exact ⟨h1, h2⟩
    | some impl =>
      cases t with
      | exclusive =>
        exact invokeFactory_pres
          (P := fun s => k ∈ s.activeCtors ∧ lookupA s.serviceInstances k = none)
          (fun s d => getService fuel s d.2 d.1)
          (fun s d hs => ih s d.2 d.1 hs.1 hs.2) (fun _ _ _ hs => hs) st impl ⟨h1, h2⟩
      | named n =>
        exact getServiceTagged_uncached k (fun s d => getService fuel s d.2 d.1)
          (fun s d hs => ih s d.2 d.1 hs.1 hs.2) st i n impl ⟨h1, h2⟩

/-! ## Allocation-counter monotonicity

`std::make_shared` never returns an object that already exists; the model's
`nextObj` counter only grows, and a successful `Exclusive` resolution returns
an identity at least the pre-state counter and strictly below the post-state
counter. -/

theorem resolveSeq_mono (f : ScopeState → Tag × Nat → Except Err Nat × ScopeState)
    (hf : ∀ s d, s.nextObj ≤ (f s d).2.nextObj) (ds : List (Tag × Nat)) (st : ScopeState) :
    st.nextObj ≤ (resolveSeq f st ds).2.nextObj :=
  resolveSeq_pres (P := fun s => st.nextObj ≤ s.nextObj) f
    (fun s d hs => le_trans hs (hf s d)) ds st (le_refl _)

theorem invokeFactory_mono (f : ScopeState → Tag × Nat → Except Err Nat × ScopeState)
    (hf : ∀ s d, s.nextObj ≤ (f s d).2.nextObj) (st : ScopeState) (impl : ImplData) :
    st.nextObj ≤ (invokeFactory f st impl).2.nextObj := by
  rw [invokeFactory]
  split
  · next e st1 heq =>
    have h1 := resolveSeq_mono f hf impl.deps st
    rw [heq] at h1
    exact h1
  · next u st1 heq =>
    have h1 := resolveSeq_mono f hf impl.deps st
    rw [heq] at h1
    by_cases hfl : impl.failsWhen st1.calls = true
    · simp only [hfl, if_true]
      exact h1
    · simp only [hfl, if_false]
      exact le_trans h1 (Nat.le_succ _)

theorem getServiceTagged_mono (f : ScopeState → Tag × Nat → Except Err Nat × ScopeState)
    (hf : ∀ s d, s.nextObj ≤ (f s d).2.nextObj) (st : ScopeState) (iface n : Nat)
    (impl : ImplData) :
    st.nextObj ≤ (getServiceTagged f st iface n impl).2.nextObj := by
  rw [getServiceTagged]
  cases heqc : lookupA st.serviceInstances (n, iface) with
  | some u => exact le_refl _
  | none =>
    by_cases hmem : (n, iface) ∈ st.activeCtors
    · simp only [if_pos hmem]
      exact le_refl _
    · simp only [if_neg hmem]
      have hinv := invokeFactory_mono f hf
        { st with activeCtors := (n, iface) :: st.activeCtors } impl
      rcases heq2 : invokeFactory f
        { st with activeCtors := (n, iface) :: st.activeCtors } impl with ⟨r, st2⟩
      rw [heq2] at hinv
      cases r with
      | error e => exact hinv
      | ok inst =>
        show st.nextObj ≤ (writePhase st2 (n, iface) inst).2.nextObj
        rw [writePhase_nextObj]
        exact hinv

theorem getService_mono (fuel : Nat) :
    ∀ st i t, st.nextObj ≤ (getService fuel st i t).2.nextObj := by
  induction fuel with
  | zero => intro st i t; exact le_refl _
  | succ fuel ih =>
    intro st i t
    rw [getService]
    cases heqi : lookupA st.serviceImpls i with
    | none => exact le_refl _
    | some impl =>
      cases t with
      | exclusive =>
        exact invokeFactory_mono (fun s d => getService fuel s d.2 d.1)
          (fun s d => ih s d.2 d.1) st impl
      | named n =>
        exact getServiceTagged_mono (fun s d => getService fuel s d.2 d.1)
          (fun s d => ih s d.2 d.1) st i n impl

theorem runOps_mono (ops : List Op) : ∀ st : ScopeState, st.nextObj ≤ (runOps ops st).nextObj := by
  induction ops with
  | nil => intro st; exact le_refl _
  | cons op rest ih =>
    intro st
    show st.nextObj ≤ (runOps rest (getService op.fuel st op.iface op.tag).2).nextObj
    exact le_trans (getService_mono op.fuel st op.iface op.tag) (ih _)

theorem runOps_instances_pres (k : Nat × Nat) (v : Nat) (ops : List Op) :
    ∀ st : ScopeState, lookupA st.serviceInstances k = some v →
      lookupA (runOps ops st).serviceInstances k = some v := by
  induction ops with
  | nil => intro st h; exact h
  | cons op rest ih =>
    intro st h
    show lookupA (runOps rest (getService op.fuel st op.iface op.tag).2).serviceInstances k
      = some v
    exact ih _ (getService_instances_pres k v op.fuel st op.iface op.tag h)

/-! ## Outcomes of a resolution -/

theorem writePhase_ok_cached (st : ScopeState) (k : Nat × Nat) (inst v : Nat)
    (st3 : ScopeState) (h : writePhase st k inst = (.ok v, st3)) :
    lookupA st3.serviceInstances k = some v := by
  rw [writePhase] at h
  cases heqw : lookupA st.serviceInstances k with
  | some w =>
    rw [heqw] at h
    replace h : ((Except.ok w : Except Err Nat), st) = (Except.ok v, st3) := h
    simp only [Prod.mk.injEq, Except.ok.injEq] at h
    obtain ⟨rfl, rfl⟩ := h
    exact heqw
  | none =>
    rw [heqw] at h
    replace h : ((Except.ok inst : Except Err Nat),
        { st with serviceInstances := insertA st.serviceInstances k inst })
        = (Except.ok v, st3) := h
    simp only [Prod.mk.injEq, Except.ok.injEq] at h
    obtain ⟨rfl, rfl⟩ := h
    simp [lookupA_insertA]

theorem writePhase_not_error (st : ScopeState) (k : Nat × Nat) (inst : Nat) (e : Err) :
    (writePhase st k inst).1 ≠ .error e := by
  rw [writePhase]
  cases lookupA st.serviceInstances k <;> simp

/-- A successful shared resolution leaves its result in the cache under the
tagged id: either it found it there (read phase or write-phase re-check), or
it inserted it. -/
theorem getServiceTagged_ok_cached
    (f : ScopeState → Tag × Nat → Except Err Nat × ScopeState)
    (st : ScopeState) (iface n : Nat) (impl : ImplData) (v : Nat) (st' : ScopeState)
    (h : getServiceTagged f st iface n impl = (.ok v, st')) :
    lookupA st'.serviceInstances (n, iface) = some v := by
  rw [getServiceTagged] at h
  cases heqc : lookupA st.serviceInstances (n, iface) with
  | some u =>
    rw [heqc] at h
    replace h : ((Except.ok u : Except Err Nat), st) = (Except.ok v, st') := h
    simp only [Prod.mk.injEq, Except.ok.injEq] at h
    obtain ⟨rfl, rfl⟩ := h
    exact heqc
  | none =>
    rw [heqc] at h
    by_cases hmem : (n, iface) ∈ st.activeCtors
    · rw [if_pos hmem] at h
      replace h : ((Except.error Err.cycle : Except Err Nat), st) = (Except.ok v, st') := h
      simp at h
    · rw [if_neg hmem] at h
      rcases heq2 : invokeFactory f
        { st with activeCtors := (n, iface) :: st.activeCtors } impl with ⟨r, st2⟩
      rw [heq2] at h
      cases r with
      | error e =>
        replace h : ((Except.error e : Except Err Nat),
            { st2 with activeCtors := st2.activeCtors.erase (n, iface) })
            = (Except.ok v, st') := h
        simp at h
      | ok inst =>
        replace h : ((writePhase st2 (n, iface) inst).1,
            { (writePhase st2 (n, iface) inst).2 with
                activeCtors := (writePhase st2 (n, iface) inst).2.activeCtors.erase (n, iface) })
            = (Except.ok v, st') := h
        have h1 := congrArg Prod.fst h
        have h2 := congrArg Prod.snd h
        simp only at h1 h2
        rcases heqw : writePhase st2 (n, iface) inst with ⟨rw0, wst⟩
        rw [heqw] at h1 h2
        simp only at h1 h2
        subst h1
        have hcache := writePhase_ok_cached st2 (n, iface) inst v wst heqw
        rw [← h2]
        exact hcache

/-- Resolving a tagged id that is already cached returns the cached value and
leaves the state untouched (the shared-lock read phase). -/
theorem getServiceTagged_cached
    (f : ScopeState → Tag × Nat → Except Err Nat × ScopeState)
    (st : ScopeState) (iface n : Nat) (impl : ImplData) (v : Nat)
    (hc : lookupA st.serviceInstances (n, iface) = some v) :
    getServiceTagged f st iface n impl = (.ok v, st) := by
  rw [getServiceTagged, hc]

theorem getService_named_ok_cached (fuel : Nat) (st : ScopeState) (i n v : Nat)
    (st' : ScopeState) (h : getService fuel st i (.named n) = (.ok v, st')) :
    lookupA st'.serviceInstances (n, i) = some v := by
  cases fuel with
  | zero =>
    replace h : ((Except.error Err.fuelOut : Except Err Nat), st) = (Except.ok v, st') := h
    simp at h
  | succ fuel =>
    rw [getService] at h
    cases heqi : lookupA st.serviceImpls i with
    | none =>
      rw [heqi] at h
      replace h : ((Except.error Err.unbound : Except Err Nat), st) = (Except.ok v, st') := h
      simp at h
    | some impl =>
      rw [heqi] at h
      replace h : getServiceTagged (fun s d => getService fuel s d.2 d.1) st i n impl
          = (.ok v, st') := h
      exact getServiceTagged_ok_cached _ st i n impl v st' h

theorem getService_named_ok_of_cached (fuel : Nat) (st : ScopeState) (i n v w : Nat)
    (st' : ScopeState) (hc : lookupA st.serviceInstances (n, i) = some v)
    (h : getService fuel st i (.named n) = (.ok w, st')) : w = v := by
  cases fuel with
  | zero =>
    replace h : ((Except.error Err.fuelOut : Except Err Nat), st) = (Except.ok w, st') := h
    simp at h
  | succ fuel =>
    rw [getService] at h
    cases heqi : lookupA st.serviceImpls i with
    | none =>
      rw [heqi] at h
      replace h : ((Except.error Err.unbound : Except Err Nat), st) = (Except.ok w, st') := h
      simp at h
    | some impl =>
      rw [heqi] at h
      replace h : getServiceTagged (fun s d => getService fuel s d.2 d.1) st i n impl
          = (.ok w, st') := h
      rw [getServiceTagged_cached _ st i n impl v hc] at h
      simp only [Prod.mk.injEq, Except.ok.injEq] at h
      exact h.1.symm

theorem getServiceTagged_error_uncached
    (f : ScopeState → Tag × Nat → Except Err Nat × ScopeState)
    (hf : ∀ s d, (n0 : Nat × Nat) → n0 ∈ s.activeCtors →
      lookupA s.serviceInstances n0 = none →
      n0 ∈ (f s d).2.activeCtors ∧ lookupA (f s d).2.serviceInstances n0 = none)
    (st : ScopeState) (iface n : Nat) (impl : ImplData) (e : Err) (st' : ScopeState)
    (h : getServiceTagged f st iface n impl = (.error e, st'))
    (hc : lookupA st.serviceInstances (n, iface) = none) :
    lookupA st'.serviceInstances (n, iface) = none := by
  rw [getServiceTagged] at h
  rw [hc] at h
  by_cases hmem : (n, iface) ∈ st.activeCtors
  · rw [if_pos hmem] at h
    replace h : ((Except.error Err.cycle : Except Err Nat), st) = (Except.error e, st') := h
    simp only [Prod.mk.injEq, Except.error.injEq] at h
    obtain ⟨rfl, rfl⟩ := h
    exact hc
  · rw [if_neg hmem] at h
    have hinv := invokeFactory_pres
      (P := fun s => (n, iface) ∈ s.activeCtors ∧ lookupA s.serviceInstances (n, iface) = none)
      f (fun s d hs => hf s d (n, iface) hs.1 hs.2) (fun _ _ _ hs => hs)
      { st with activeCtors := (n, iface) :: st.activeCtors } impl
      ⟨List.mem_cons_self _ _, hc⟩
    rcases heq2 : invokeFactory f
      { st with activeCtors := (n, iface) :: st.activeCtors } impl with ⟨r, st2⟩
    rw [heq2] at hinv
    rw [heq2] at h
    cases r with
    | error e2 =>
      replace h : ((Except.error e2 : Except Err Nat),
          { st2 with activeCtors := st2.activeCtors.erase (n, iface) })
          = (Except.error e, st') := h
      simp only [Prod.mk.injEq, Except.error.injEq] at h
      obtain ⟨rfl, rfl⟩ := h
      exact hinv.2
    | ok inst =>
      replace h : ((writePhase st2 (n, iface) inst).1,
          { (writePhase st2 (n, iface) inst).2 with
              activeCtors := (writePhase st2 (n, iface) inst).2.activeCtors.erase (n, iface) })
          = (Except.error e, st') := h
      have h1 := congrArg Prod.fst h
      simp only at h1
      exact absurd h1 (writePhase_not_error st2 (n, iface) inst e)

/-- A resolution that fails never caches the id it was resolving. -/
theorem getService_named_error_uncached (fuel : Nat) :
    ∀ st i n e st', getService fuel st i (.named n) = (.error e, st') →
      lookupA st.serviceInstances (n, i) = none →
      lookupA st'.serviceInstances (n, i) = none := by
  intro st i n e st' h hc
  cases fuel with
  | zero =>
    replace h : ((Except.error Err.fuelOut : Except Err Nat), st) = (Except.error e, st') := h
    simp only [Prod.mk.injEq, Except.error.injEq] at h
    obtain ⟨rfl, rfl⟩ := h
    exact hc
  | succ fuel =>
    rw [getService] at h
    cases heqi : lookupA st.serviceImpls i with
    | none =>
      rw [heqi] at h
      replace h : ((Except.error Err.unbound : Except Err Nat), st) = (Except.error e, st') := h
      simp only [Prod.mk.injEq, Except.error.injEq] at h
      obtain ⟨rfl, rfl⟩ := h
      exact hc
    | some impl =>
      rw [heqi] at h
      replace h : getServiceTagged (fun s d => getService fuel s d.2 d.1) st i n impl
          = (.error e, st') := h
      exact getServiceTagged_error_uncached (fun s d => getService fuel s d.2 d.1)
        (fun s d n0 h1 h2 => getService_uncached n0 fuel s d.2 d.1 h1 h2)
        st i n impl e st' h hc

theorem invokeFactory_ok_bounds
    (f : ScopeState → Tag × Nat → Except Err Nat × ScopeState)
    (hf : ∀ s d, s.nextObj ≤ (f s d).2.nextObj)
    (st : ScopeState) (impl : ImplData) (v : Nat) (st' : ScopeState)
    (h : invokeFactory f st impl = (.ok v, st')) :
    st.nextObj ≤ v ∧ v < st'.nextObj := by
  rw [invokeFactory] at h
  split at h
  · next e st1 heq => simp at h
  · next u st1 heq =>
    have h1 := resolveSeq_mono f hf impl.deps st
    rw [heq] at h1
    by_cases hfl : impl.failsWhen st1.calls = true
    · rw [if_pos hfl] at h
      simp at h
    · rw [if_neg hfl] at h
      simp only [Prod.mk.injEq, Except.ok.injEq] at h
      obtain ⟨rfl, rfl⟩ := h
      exact ⟨h1, Nat.lt_succ_self _⟩

/-- A successful `Exclusive` resolution returns a brand-new object identity:
at least the pre-state allocation counter, strictly below the post-state
counter. -/
theorem getService_exclusive_ok_bounds (fuel : Nat) (st : ScopeState) (i v : Nat)
    (st' : ScopeState) (h : getService fuel st i .exclusive = (.ok v, st')) :
    st.nextObj ≤ v ∧ v < st'.nextObj := by
  cases fuel with
  | zero =>
    replace h : ((Except.error Err.fuelOut : Except Err Nat), st) = (Except.ok v, st') := h
    simp at h
  | succ fuel =>
    rw [getService] at h
    cases heqi : lookupA st.serviceImpls i with
    | none =>
      rw [heqi] at h
      replace h : ((Except.error Err.unbound : Except Err Nat), st) = (Except.ok v, st') := h
      simp at h
    | some impl =>
      rw [heqi] at h
      replace h : invokeFactory (fun s d => getService fuel s d.2 d.1) st impl
          = (.ok v, st') := h
      exact invokeFactory_ok_bounds (fun s d => getService fuel s d.2 d.1)
        (fun s d => getService_mono fuel s d.2 d.1) st impl v st' h

/-! ## Registration: what survives the flattening -/

theorem getLast?_or_cons {α : Type} (x : α) (l : List α) (y : Option α) :
    ((x :: l).getLast?).or y = (l.getLast?).or (some x) := by
  induction l generalizing x y with
  | nil => simp [Option.or]
  | cons z l' ih => rw [List.getLast?_cons_cons, ih z y, ih z (some x)]

theorem getLast?_append_or {α : Type} (l1 l2 : List α) :
    (l1 ++ l2).getLast? = (l2.getLast?).or l1.getLast? := by
  cases h : l2 with
  | nil => simp [Option.none_or]
  | cons x l2' =>
    rw [List.getLast?_append_of_ne_nil l1 (by simp)]
    obtain ⟨a, ha⟩ := Option.isSome_iff_exists.mp
      (List.getLast?_isSome.mpr (by simp : (x :: l2') ≠ []))
    rw [ha]
    simp [Option.or]

/-- Effect of the inner registration loop (over one interface's impl map) on
a lookup: for the interface being written, the last written factory wins;
other interfaces are untouched. -/
theorem lookupA_innerFold {α : Type} (i : Nat) (m : List (Nat × α)) :
    ∀ (acc : List (Nat × α)) (j : Nat),
      lookupA (m.foldl (fun acc2 q => insertA acc2 i q.2) acc) j
        = (if j = i then (List.map Prod.snd m).getLast? else none).or (lookupA acc j) := by
  induction m with
  | nil =>
    intro acc j
    by_cases hj : j = i <;> simp [hj, Option.none_or]
  | cons q m' ih =>
    intro acc j
    rw [List.foldl_cons, ih (insertA acc i q.2) j, lookupA_insertA]
    by_cases hj : j = i
    · subst hj
      simp [getLast?_or_cons]
    · simp [hj]

/-- Effect of registering one table (in iteration order `o`) on a lookup:
the last write for interface `j` wins; if `o` never writes `j`, the previous
entry is kept. -/
theorem lookupA_registerAtScope {α : Type} (o : Table α) :
    ∀ (acc : List (Nat × α)) (j : Nat),
      lookupA (registerAtScope o acc) j = ((writesFor o j).getLast?).or (lookupA acc j) := by
  induction o with
  | nil =>
    intro acc j
    simp [registerAtScope, writesFor, Option.none_or]
  | cons p o' ih =>
    intro acc j
    rw [registerAtScope, ih, lookupA_innerFold p.1 p.2 acc j]
    have hw : writesFor (p :: o') j
        = (if p.1 = j then p.2.map Prod.snd else []) ++ writesFor o' j := by
      rw [writesFor, List.flatMap_cons]
      rfl
    rw [hw, getLast?_append_or, Option.or_assoc]
    have hif : (if j = p.1 then (List.map Prod.snd p.2).getLast? else none)
        = ((if p.1 = j then p.2.map Prod.snd else []).getLast?) := by
      by_cases hj : j = p.1
      · rw [if_pos hj, if_pos hj.symm]
      · rw [if_neg hj, if_neg (fun hh => hj hh.symm)]
        rfl
    rw [hif]

/-- Effect of the whole constructor-body fold: the very last write for
interface `j`, across all tables in order, wins. -/
theorem lookupA_registerAll {α : Type} (os : List (Table α)) :
    ∀ (acc : List (Nat × α)) (j : Nat),
      lookupA (registerAll os acc) j
        = ((os.flatMap fun o => writesFor o j).getLast?).or (lookupA acc j) := by
  induction os with
  | nil =>
    intro acc j
    simp [registerAll, Option.none_or]
  | cons o os' ih =>
    intro acc j
    rw [registerAll, ih, lookupA_registerAtScope]
    rw [List.flatMap_cons, getLast?_append_or, Option.or_assoc]

theorem lookupA_scopeImpls {α : Type} (os : List (Table α)) (j : Nat) :
    lookupA (scopeImpls os) j = ((os.flatMap fun o => writesFor o j).getLast?) := by
  rw [scopeImpls, lookupA_registerAll]
  show _ = ((os.flatMap fun o => writesFor o j).getLast?)
  rw [show lookupA ([] : List (Nat × α)) j = none from rfl, Option.or_none]

/-- The writes a table performs for interface `i` are, as a multiset, the
factories the table binds for `i` — independent of iteration order. -/
theorem writesFor_coe {α : Type} (o : Table α) (i : Nat) :
    ((writesFor o i : List α) : Multiset α) = factoriesFor o i := by
  induction o with
  | nil => rfl
  | cons p o' ih =>
    have hw : writesFor (p :: o') i
        = (if p.1 = i then p.2.map Prod.snd else []) ++ writesFor o' i := by
      rw [writesFor, List.flatMap_cons]
      rfl
    have hf : factoriesFor (p :: o') i
        = (if p.1 = i then ((p.2.map Prod.snd : List α) : Multiset α) else 0)
          + factoriesFor o' i := by
      rw [factoriesFor, List.map_cons, List.sum_cons]
      rfl
    rw [hw, hf]
    by_cases hc : p.1 = i
    · rw [if_pos hc, if_pos hc, ← ih, Multiset.coe_add]
    · rw [if_neg hc, if_neg hc, ← ih]
      simp

/-- A table and any iteration order of it bind the same factories for every
interface. -/
theorem factoriesFor_eq_of_iter {α : Type} (t o : Table α) (h : IterOf t o) (i : Nat) :
    factoriesFor o i = factoriesFor t i := by
  have key : ∀ u : Table α, factoriesFor u i
      = ((tableEntries u).map
          (fun p => Multiset.map Prod.snd (if p.1 = i then p.2 else 0))).sum := by
    intro u
    rw [factoriesFor, tableEntries, Multiset.map_coe, Multiset.sum_coe, List.map_map]
    congr 1
    apply List.map_congr_left
    intro p _
    by_cases hc : p.1 = i
    · simp [hc, Multiset.map_coe]
    · simp [hc]
  have h' : tableEntries o = tableEntries t := h
  rw [key o, key t, h']

/-- Listing all tables after the winning one contributes no writes for the
interface when none of them binds it. -/
theorem flatMap_writes_nil {α : Type} (i : Nat) :
    ∀ (ts os : List (Table α)), List.Forall₂ IterOf ts os →
      (∀ t2 ∈ ts, factoriesFor t2 i = 0) →
      os.flatMap (fun o => writesFor o i) = [] := by
  intro ts os h
  induction h with
  | nil => intro _; rfl
  | cons hto hrest ih =>
    next t o ts' os' =>
    intro hz
    rw [List.flatMap_cons]
    have h1 : writesFor o i = [] := by
      have := writesFor_coe o i
      rw [factoriesFor_eq_of_iter t o hto i, hz t (by simp)] at this
      exact (Multiset.coe_eq_zero _).mp this
    rw [h1, List.nil_append]
    exact ih (fun t2 ht2 => hz t2 (List.mem_cons_of_mem _ ht2))

/-! ## The stack trace at block boundaries -/

theorem foldl_stackStep_registers (s : Nat) (ts : List Nat) :
    ∀ l, List.foldl stackStep l (ts.map (Ev.register s)) = l := by
  induction ts with
  | nil => intro l; rfl
  | cons x ts' ih =>
    intro l
    rw [List.map_cons, List.foldl_cons]
    exact ih l

theorem foldl_specStep_registers (s : Nat) (ts : List Nat) :
    ∀ l, List.foldl specStep l (ts.map (Ev.register s)) = l := by
  induction ts with
  | nil => intro l; rfl
  | cons x ts' ih =>
    intro l
    rw [List.map_cons, List.foldl_cons]
    exact ih l

theorem foldl_stackStep_ctor (s : Nat) (ts : List Nat) (l : List Nat) :
    List.foldl stackStep l (ctorEvents s ts) = l ++ [s] := by
  rw [ctorEvents, List.foldl_cons]
  rw [show stackStep l (Ev.push s) = l ++ [s] from rfl]
  rw [List.foldl_append, foldl_stackStep_registers]
  rfl

theorem foldl_specStep_ctor (s : Nat) (ts : List Nat) (l : List Nat) :
    List.foldl specStep l (ctorEvents s ts) = l ++ [s] := by
  rw [ctorEvents, List.foldl_cons]
  rw [show specStep l (Ev.push s) = l from rfl]
  rw [List.foldl_append, foldl_specStep_registers]
  rfl

theorem foldl_stackStep_dtor (s : Nat) (l : List Nat) (h : l.getLast? = some s) :
    List.foldl stackStep l (dtorEvents s) = l.dropLast := by
  show stackStep (stackStep l (Ev.dtorBegin s)) (Ev.pop s) = l.dropLast
  rw [show stackStep l (Ev.dtorBegin s) = l from rfl]
  show (if l.getLast? = some s then l.dropLast else l) = l.dropLast
  rw [if_pos h]

theorem foldl_specStep_dtor (s : Nat) (l : List Nat) (hnd : l.Nodup)
    (h : l.getLast? = some s) :
    List.foldl specStep l (dtorEvents s) = l.dropLast := by
  show specStep (specStep l (Ev.dtorBegin s)) (Ev.pop s) = l.dropLast
  show List.filter (fun x => x ≠ s) l = l.dropLast
  have hne : l ≠ [] := by
    intro hh
    rw [hh] at h
    cases h
  have hgl : l.getLast hne = s := by
    have h2 := List.getLast?_eq_getLast l hne
    rw [h2] at h
    exact Option.some.inj h
  have hsplit : l = l.dropLast ++ [s] := by
    conv_lhs => rw [← List.dropLast_append_getLast hne]
    rw [hgl]
  have hs_not : s ∉ l.dropLast := by
    intro hmem
    have hnd2 : (l.dropLast ++ [s]).Nodup := hsplit ▸ hnd
    rcases List.nodup_append.mp hnd2 with ⟨_, _, hdisj⟩
    exact hdisj hmem (by simp)
  conv_lhs => rw [hsplit]
  rw [List.filter_append]
  have h1 : List.filter (fun x => x ≠ s) l.dropLast = l.dropLast := by
    apply List.filter_eq_self.mpr
    intro x hx
    have hxs : x ≠ s := fun hh => hs_not (hh ▸ hx)
    simpa using hxs
  have h2 : List.filter (fun x => x ≠ s) [s] = [] := by simp
  rw [h1, h2, List.append_nil]

/-- Between blocks — whenever no constructor or destructor is mid-flight —
the real stack and the constructed-and-not-destroyed characterization agree,
for every well-formed program. -/
theorem stack_eq_spec_blocks :
    ∀ (bs : List Blk) (l : List Nat), validBlks bs l = true → l.Nodup →
      List.foldl stackStep l (traceOf bs) = List.foldl specStep l (traceOf bs) := by
  intro bs
  induction bs with
  | nil => intro l _ _; rfl
  | cons b rest ih =>
    intro l hv hnd
    cases b with
    | ctor s ts =>
      rw [validBlks, Bool.and_eq_true] at hv
      obtain ⟨hns, hv'⟩ := hv
      have hs_not : s ∉ l := by simpa using hns
      have htr : traceOf (Blk.ctor s ts :: rest) = ctorEvents s ts ++ traceOf rest := by
        rw [traceOf, List.flatMap_cons]
        rfl
      rw [htr, List.foldl_append, List.foldl_append,
        foldl_stackStep_ctor, foldl_specStep_ctor]
      have hnd' : (l ++ [s]).Nodup := by
        rw [List.nodup_append]
        refine ⟨hnd, List.nodup_singleton s, ?_⟩
        intro x hx hxs
        rw [List.mem_singleton] at hxs
        exact hs_not (hxs ▸ hx)
      exact ih (l ++ [s]) hv' hnd'
    | dtor s =>
      rw [validBlks] at hv
      cases hgl : l.getLast? with
      | none =>
        rw [hgl] at hv
        replace hv : (false : Bool) = true := hv
        cases hv
      | some x =>
        rw [hgl] at hv
        replace hv : (x == s && validBlks rest l.dropLast) = true := hv
        rw [Bool.and_eq_true] at hv
        obtain ⟨hxs, hv'⟩ := hv
        have hx : x = s := by simpa using hxs
        subst hx
        have htr : traceOf (Blk.dtor x :: rest) = dtorEvents x ++ traceOf rest := by
          rw [traceOf, List.flatMap_cons]
          rfl
        rw [htr, List.foldl_append, List.foldl_append,
          foldl_stackStep_dtor x l hgl, foldl_specStep_dtor x l hnd hgl]
        have hnd' : l.dropLast.Nodup := List.Nodup.sublist (List.dropLast_sublist l) hnd
        exact ih l.dropLast hv' hnd'

/-! ## Claim theorems -/

/-- C3: for every scope, interface `i` and tag `named n` (any tag other than
the fresh/exclusive tag), any two successful resolutions of `(i, n)` on the
same scope — with arbitrary other resolutions in between — return the same
instance identity. -/
theorem shared_resolution_idempotent (f1 f2 : Nat) (st st1 st2 : ScopeState)
    (i n : Nat) (ops : List Op) (v w : Nat)
    (h1 : getService f1 st i (.named n) = (.ok v, st1))
    (h2 : getService f2 (runOps ops st1) i (.named n) = (.ok w, st2)) :
    w = v := by
  have hc := getService_named_ok_cached f1 st i n v st1 h1
  have hc2 := runOps_instances_pres (n, i) v ops st1 hc
  exact getService_named_ok_of_cached f2 (runOps ops st1) i n v w st2 hc2 h2

theorem shared_resolution_idempotent_witness :
    getService 2 stW 0 (Tag.named 0) = (.ok 0, stW1) ∧
    getService 2 (runOps [] stW1) 0 (Tag.named 0) = (.ok 0, stW1) ∧ (0 : Nat) = 0 :=
  ⟨rfl, rfl, shared_resolution_idempotent 2 2 stW stW1 stW1 0 0 [] 0 0 rfl rfl⟩

/-- C4: an instance-cache entry, once inserted, is never overwritten for the
rest of the scope's lifetime (any further sequence of resolutions); and a
write phase that finds the id already present returns the previously cached
entry unchanged, discarding the newly constructed instance. -/
theorem instances_never_overwritten :
    (∀ (ops : List Op) (st : ScopeState) (k : Nat × Nat) (v : Nat),
      lookupA st.serviceInstances k = some v →
      lookupA (runOps ops st).serviceInstances k = some v) ∧
    (∀ (st : ScopeState) (k : Nat × Nat) (inst w : Nat),
      lookupA st.serviceInstances k = some w →
      writePhase st k inst = (.ok w, st)) := by
  constructor
  · intro ops st k v h
    exact runOps_instances_pres k v ops st h
  · intro st k inst w h
    rw [writePhase, h]

theorem instances_never_overwritten_witness :
    lookupA stW1.serviceInstances (0, 0) = some 0 ∧
    lookupA (runOps [⟨2, 0, Tag.exclusive⟩] stW1).serviceInstances (0, 0) = some 0 ∧
    writePhase stW1 (0, 0) 7 = (.ok 0, stW1) :=
  ⟨rfl, instances_never_overwritten.1 [⟨2, 0, Tag.exclusive⟩] stW1 (0, 0) 0 rfl,
    instances_never_overwritten.2 stW1 (0, 0) 7 0 rfl⟩

/-- C5: resolving with the fresh/exclusive tag is exactly one factory
invocation — the resolution machinery adds no cache read, no cache write and
no cycle-checker entry of its own (for a dependency-free factory the
instance cache and the checker are left untouched, only the allocation and
call counters move) — and any two successful exclusive resolutions on the
same scope return distinct instances. -/
theorem exclusive_resolution_fresh :
    (∀ (fuel : Nat) (st : ScopeState) (i : Nat) (impl : ImplData),
      lookupA st.serviceImpls i = some impl →
      getService (fuel + 1) st i .exclusive
        = invokeFactory (fun s d => getService fuel s d.2 d.1) st impl) ∧
    (∀ (fuel : Nat) (st : ScopeState) (i : Nat) (impl : ImplData),
      lookupA st.serviceImpls i = some impl → impl.deps = [] →
      impl.failsWhen st.calls = false →
      getService (fuel + 1) st i .exclusive
        = (.ok st.nextObj, { st with nextObj := st.nextObj + 1, calls := st.calls + 1 })) ∧
    (∀ (f1 f2 : Nat) (st st1 st2 : ScopeState) (i1 i2 : Nat) (ops : List Op) (v1 v2 : Nat),
      getService f1 st i1 .exclusive = (.ok v1, st1) →
      getService f2 (runOps ops st1) i2 .exclusive = (.ok v2, st2) →
      v1 ≠ v2) := by
  refine ⟨?_, ?_, ?_⟩
  · intro fuel st i impl hb
    rw [getService, hb]
  · intro fuel st i impl hb hdeps hfail
    simp [getService, hb, invokeFactory, hdeps, resolveSeq, hfail]
  · intro f1 f2 st st1 st2 i1 i2 ops v1 v2 h1 h2
    have b1 := getService_exclusive_ok_bounds f1 st i1 v1 st1 h1
    have b2 := getService_exclusive_ok_bounds f2 (runOps ops st1) i2 v2 st2 h2
    have hm := runOps_mono ops st1
    omega

theorem exclusive_resolution_fresh_witness :
    lookupA stW.serviceImpls 0 = some implPlain ∧
    implPlain.deps = [] ∧ implPlain.failsWhen stW.calls = false ∧
    getService 1 stW 0 Tag.exclusive = (.ok 0, stWe1) ∧
    getService 1 (runOps [] stWe1) 0 Tag.exclusive = (.ok 1, stWe2) ∧
    (0 : Nat) ≠ 1 :=
  ⟨rfl, rfl, rfl,
    exclusive_resolution_fresh.2.1 0 stW 0 implPlain rfl rfl rfl,
    rfl,
    exclusive_resolution_fresh.2.2 1 1 stW stWe1 stWe2 0 0 [] 0 1 rfl rfl⟩

/-- C6: a resolution that reaches a tagged id already under construction in
the same scope fails with the cycle error (state unchanged), and an errored
resolution never deposits the id it was resolving into the instance cache —
so no instance on a dependency cycle gets cached. -/
theorem cycle_detected :
    (∀ (fuel : Nat) (st : ScopeState) (i n : Nat) (impl : ImplData),
      lookupA st.serviceImpls i = some impl →
      (n, i) ∈ st.activeCtors →
      lookupA st.serviceInstances (n, i) = none →
      getService (fuel + 1) st i (.named n) = (.error .cycle, st)) ∧
    (∀ (fuel : Nat) (st : ScopeState) (i n : Nat) (e : Err) (st' : ScopeState),
      getService fuel st i (.named n) = (.error e, st') →
      lookupA st.serviceInstances (n, i) = none →
      lookupA st'.serviceInstances (n, i) = none) := by
  constructor
  · intro fuel st i n impl hb hmem hc
    rw [getService, hb]
    show getServiceTagged (fun s d => getService fuel s d.2 d.1) st i n impl
      = (.error .cycle, st)
    rw [getServiceTagged, hc]
    simp [hmem]
  · intro fuel st i n e st' h hc
    exact getService_named_error_uncached fuel st i n e st' h hc

theorem cycle_detected_witness :
    lookupA stCyc.serviceImpls 0 = some implPlain ∧
    (0, 0) ∈ stCyc.activeCtors ∧
    lookupA stCyc.serviceInstances (0, 0) = none ∧
    getService 1 stCyc 0 (Tag.named 0) = (.error .cycle, stCyc) ∧
    lookupA stCyc.serviceInstances (0, 0) = none :=
  ⟨rfl, by simp [stCyc], rfl,
    cycle_detected.1 0 stCyc 0 0 implPlain rfl (by simp [stCyc]) rfl,
    cycle_detected.2 1 stCyc 0 0 Err.cycle stCyc
      (cycle_detected.1 0 stCyc 0 0 implPlain rfl (by simp [stCyc]) rfl) rfl⟩

/-- C7: resolving an interface with no factory in the scope's impls map fails
with the unbound-service error under every tag (the exclusive tag included)
and leaves the scope's state unchanged, so any subsequent resolution behaves
exactly as it would have before the failure. -/
theorem unbound_resolution_fails :
    ∀ (fuel : Nat) (st : ScopeState) (i : Nat) (tag : Tag),
      lookupA st.serviceImpls i = none →
      getService (fuel + 1) st i tag = (.error .unbound, st) ∧
      (∀ (g j : Nat) (t2 : Tag),
        getService g (getService (fuel + 1) st i tag).2 j t2 = getService g st j t2) := by
  intro fuel st i tag h
  have hmain : getService (fuel + 1) st i tag = (.error .unbound, st) := by
    rw [getService, h]
  refine ⟨hmain, ?_⟩
  intro g j t2
  rw [hmain]

theorem unbound_resolution_fails_witness :
    lookupA stW.serviceImpls 5 = none ∧
    getService 3 stW 5 (Tag.named 0) = (.error .unbound, stW) ∧
    getService 3 stW 5 Tag.exclusive = (.error .unbound, stW) ∧
    getService 2 (getService 3 stW 5 (Tag.named 0)).2 0 (Tag.named 0)
      = getService 2 stW 0 (Tag.named 0) :=
  ⟨rfl,
    (unbound_resolution_fails 2 stW 5 (Tag.named 0) rfl).1,
    (unbound_resolution_fails 2 stW 5 Tag.exclusive rfl).1,
    (unbound_resolution_fails 2 stW 5 (Tag.named 0) rfl).2 2 0 (Tag.named 0)⟩

/-- C8: when a user-supplied factory fails during the shared resolution of a
tagged id — any factory, with any dependencies, failing persistently or
transiently — the factory's error propagates unchanged to the caller and the
unwinding cycle guard erases exactly the id it had inserted; moreover every
errored resolution restores the cycle checker's active set to its
pre-resolution contents (each guard on the unwinding stack cleans up its own
entry) and never deposits the resolved id into the instance cache.  Finally,
a factory whose failure is transient (it fails at the current invocation
count and not at the next) can be retried on the same scope and succeeds. -/
theorem factory_failure_clean :
    (∀ (fuel : Nat) (st : ScopeState) (i n : Nat) (impl : ImplData) (e : Err)
        (st2 : ScopeState),
      lookupA st.serviceImpls i = some impl →
      lookupA st.serviceInstances (n, i) = none →
      (n, i) ∉ st.activeCtors →
      invokeFactory (fun s d => getService fuel s d.2 d.1)
          { st with activeCtors := (n, i) :: st.activeCtors } impl = (.error e, st2) →
      getService (fuel + 1) st i (.named n)
        = (.error e, { st2 with activeCtors := st2.activeCtors.erase (n, i) })) ∧
    (∀ (fuel : Nat) (st : ScopeState) (i n : Nat) (e : Err) (st' : ScopeState),
      getService fuel st i (.named n) = (.error e, st') →
      st'.activeCtors = st.activeCtors ∧
      ((n, i) ∉ st.activeCtors → (n, i) ∉ st'.activeCtors) ∧
      (lookupA st.serviceInstances (n, i) = none →
        lookupA st'.serviceInstances (n, i) = none)) ∧
    (∀ (fuel g : Nat) (st : ScopeState) (i n : Nat) (impl : ImplData),
      lookupA st.serviceImpls i = some impl →
      impl.deps = [] →
      impl.failsWhen st.calls = true →
      impl.failsWhen (st.calls + 1) = false →
      (n, i) ∉ st.activeCtors →
      lookupA st.serviceInstances (n, i) = none →
      getService (fuel + 1) st i (.named n)
        = (.error .factoryFailure, { st with calls := st.calls + 1 }) ∧
      getService (g + 1) { st with calls := st.calls + 1 } i (.named n)
        = (.ok st.nextObj,
           { st with serviceInstances := insertA st.serviceInstances (n, i) st.nextObj,
                     nextObj := st.nextObj + 1, calls := st.calls + 2 })) := by
  refine ⟨?_, ?_, ?_⟩
  · intro fuel st i n impl e st2 hb hc hmem hfact
    rw [getService, hb]
    show getServiceTagged (fun s d => getService fuel s d.2 d.1) st i n impl
      = (.error e, { st2 with activeCtors := st2.activeCtors.erase (n, i) })
    rw [getServiceTagged, hc, if_neg hmem, hfact]
  · intro fuel st i n e st' h
    have ha := getService_active fuel st i (Tag.named n)
    rw [h] at ha
    refine ⟨ha, ?_, ?_⟩
    · intro hmem
      rw [ha]
      exact hmem
    · intro hc
      exact getService_named_error_uncached fuel st i n e st' h hc
  · intro fuel g st i n impl hb hdeps hf1 hf2 hmem hc
    constructor
    · rw [getService, hb]
      show getServiceTagged (fun s d => getService fuel s d.2 d.1) st i n impl
        = (.error .factoryFailure, { st with calls := st.calls + 1 })
      rw [getServiceTagged, hc, if_neg hmem]
      have einv : invokeFactory (fun s d => getService fuel s d.2 d.1)
          { st with activeCtors := (n, i) :: st.activeCtors } impl
          = (.error .factoryFailure,
             { st with activeCtors := (n, i) :: st.activeCtors, calls := st.calls + 1 }) := by
        simp [invokeFactory, hdeps, resolveSeq, hf1]
      rw [einv]
      simp
    · rw [getService, hb]
      show getServiceTagged (fun s d => getService g s d.2 d.1)
          { st with calls := st.calls + 1 } i n impl
        = (.ok st.nextObj,
           { st with serviceInstances := insertA st.serviceInstances (n, i) st.nextObj,
                     nextObj := st.nextObj + 1, calls := st.calls + 2 })
      rw [getServiceTagged]
      show (match lookupA st.serviceInstances (n, i) with
        | some v => ((Except.ok v : Except Err Nat), { st with calls := st.calls + 1 })
        | none => _) = _
      rw [hc, if_neg hmem]
      have einv : invokeFactory (fun s d => getService g s d.2 d.1)
          { st with activeCtors := (n, i) :: st.activeCtors, calls := st.calls + 1 } impl
          = (.ok st.nextObj,
             { st with activeCtors := (n, i) :: st.activeCtors,
                       nextObj := st.nextObj + 1, calls := st.calls + 2 }) := by
        simp [invokeFactory, hdeps, resolveSeq, hf2]
      rw [einv]
      simp [writePhase, hc, lookupA_insertA]

theorem factory_failure_clean_witness :
    lookupA stF.serviceImpls 0 = some implOnceFailing ∧
    lookupA stF.serviceInstances (0, 0) = none ∧
    (0, 0) ∉ stF.activeCtors ∧
    invokeFactory (fun s d => getService 0 s d.2 d.1)
        { stF with activeCtors := (0, 0) :: stF.activeCtors } implOnceFailing
      = (.error .factoryFailure, stFmid) ∧
    getService 1 stF 0 (Tag.named 0) = (.error .factoryFailure, stF1) ∧
    stF1.activeCtors = stF.activeCtors ∧
    lookupA stF1.serviceInstances (0, 0) = none ∧
    implOnceFailing.deps = [] ∧
    implOnceFailing.failsWhen stF.calls = true ∧
    implOnceFailing.failsWhen (stF.calls + 1) = false ∧
    getService 1 stF1 0 (Tag.named 0) = (.ok 0, stF2) :=
  ⟨rfl, rfl, by simp [stF, mkScopeState], rfl,
    factory_failure_clean.1 0 stF 0 0 implOnceFailing Err.factoryFailure stFmid
      rfl rfl (by simp [stF, mkScopeState]) rfl,
    (factory_failure_clean.2.1 1 stF 0 0 Err.factoryFailure stF1 rfl).1,
    (factory_failure_clean.2.1 1 stF 0 0 Err.factoryFailure stF1 rfl).2.2 rfl,
    rfl, rfl, rfl,
    (factory_failure_clean.2.2 0 0 stF 0 0 implOnceFailing rfl rfl rfl rfl
      (by simp [stF, mkScopeState]) rfl).2⟩

/-- C1 (amended): for every list of binding tables, under every iteration
order the `unordered_map`s may exhibit, the factory that survives in the
scope's impls map for an interface is one of the factories bound by the
**last table in the argument list that binds that interface** — and when that
table binds the interface to exactly one implementation, its factory is the
unique survivor.  (Within one table binding several implementations for the
same interface, the survivor is determined by the map's unspecified
iteration order, not by registration order — see the counterexample.) -/
theorem last_table_wins {α : Type} (ts1 ts2 os1 os2 : List (Table α)) (t o : Table α)
    (i : Nat)
    (_hts : List.Forall₂ IterOf ts1 os1) (hto : IterOf t o) (h2 : List.Forall₂ IterOf ts2 os2)
    (hbind : factoriesFor t i ≠ 0)
    (hafter : ∀ t2 ∈ ts2, factoriesFor t2 i = 0) :
    ∃ f, lookupA (scopeImpls (os1 ++ o :: os2)) i = some f ∧
      f ∈ factoriesFor t i ∧
      ∀ g, factoriesFor t i = {g} → f = g := by
  rw [lookupA_scopeImpls]
  have hnil : os2.flatMap (fun o2 => writesFor o2 i) = [] :=
    flatMap_writes_nil i ts2 os2 h2 hafter
  have hflat : (os1 ++ o :: os2).flatMap (fun o2 => writesFor o2 i)
      = os1.flatMap (fun o2 => writesFor o2 i) ++ writesFor o i := by
    rw [List.flatMap_append, List.flatMap_cons, hnil, List.append_nil]
  have hwo : writesFor o i ≠ [] := by
    intro hh
    apply hbind
    rw [← factoriesFor_eq_of_iter t o hto i, ← writesFor_coe, hh]
    rfl
  obtain ⟨f, hf⟩ := Option.isSome_iff_exists.mp (List.getLast?_isSome.mpr hwo)
  have hmem : f ∈ factoriesFor t i := by
    have hm1 : f ∈ writesFor o i := List.mem_of_getLast?_eq_some hf
    have hm2 : f ∈ ((writesFor o i : List α) : Multiset α) := Multiset.mem_coe.mpr hm1
    rw [writesFor_coe, factoriesFor_eq_of_iter t o hto i] at hm2
    exact hm2
  refine ⟨f, ?_, hmem, ?_⟩
  · rw [hflat, getLast?_append_or, hf]
    rfl
  · intro g hg
    rw [hg] at hmem
    exact Multiset.mem_singleton.mp hmem

theorem last_table_wins_witness :
    IterOf tOne tOne ∧ factoriesFor tOne 5 ≠ 0 ∧
    (∃ f, lookupA (scopeImpls ([] ++ tOne :: [])) 5 = some f ∧
      f ∈ factoriesFor tOne 5 ∧ ∀ g, factoriesFor tOne 5 = {g} → f = g) :=
  ⟨rfl, by decide,
    last_table_wins [] [] [] [] tOne tOne 5 List.Forall₂.nil rfl List.Forall₂.nil
      (by decide) (by simp)⟩

/-- C1 counterexample: one binding table that binds interface `5` first to
implementation `100` (factory `0`) and then to implementation `101`
(factory `1`).  Under the legal iteration order `oTwo` the factory that
survives scope registration is `0`, not the factory `1` of the
last-registered implementation — refuting the claim that within a single
table the last registered implementation always wins. -/
theorem last_registered_not_always_winner :
    IterOf tTwo oTwo ∧
    lastRegisteredFor tTwo 5 = some 1 ∧
    lookupA (scopeImpls [oTwo]) 5 = some 0 ∧
    lookupA (scopeImpls [oTwo]) 5 ≠ lastRegisteredFor tTwo 5 := by
  refine ⟨by decide, by decide, by decide, by decide⟩

/-- C2 (amended): the code pushes the scope at the *start* of construction —
the guard runs in the member-initializer list, before the constructor body
registers any binding table (`Ev.push` is the first event of `ctorEvents`,
`Ev.ctorRet` the last) — so mid-construction the stack already holds the
scope.  The claim's characterization (constructors returned, destructors not
started, in construction order) does hold at every block boundary, i.e.
whenever no constructor or destructor is mid-flight, for every well-formed
single-threaded program. -/
theorem scope_stack_boundary_characterization :
    (∀ bs : List Blk, validBlks bs [] = true →
      stackOf (traceOf bs) = specStack (traceOf bs)) ∧
    (∀ (s : Nat) (ts : List Nat),
      (ctorEvents s ts).head? = some (Ev.push s) ∧
      (ctorEvents s ts).getLast? = some (Ev.ctorRet s)) := by
  constructor
  · intro bs hv
    exact stack_eq_spec_blocks bs [] hv List.nodup_nil
  · intro s ts
    refine ⟨rfl, ?_⟩
    rw [ctorEvents,
      show Ev.push s :: (ts.map (Ev.register s) ++ [Ev.ctorRet s])
        = (Ev.push s :: ts.map (Ev.register s)) ++ [Ev.ctorRet s] from rfl]
    exact List.getLast?_concat _

theorem scope_stack_boundary_characterization_witness :
    validBlks [Blk.ctor 0 [7], Blk.ctor 1 [], Blk.dtor 1] [] = true ∧
    stackOf (traceOf [Blk.ctor 0 [7], Blk.ctor 1 [], Blk.dtor 1])
      = specStack (traceOf [Blk.ctor 0 [7], Blk.ctor 1 [], Blk.dtor 1]) :=
  ⟨by decide,
    scope_stack_boundary_characterization.1 [Blk.ctor 0 [7], Blk.ctor 1 [], Blk.dtor 1]
      (by decide)⟩

/-- C2 counterexample: constructing one scope (identity `0`) over one binding
table (`7`).  The C++ member-initializer order makes the push the *first*
event — before the table is registered — so right after the push the real
stack already contains the scope while the claim's stack (constructors that
have returned) is still empty, refuting both the "at every moment" equality
and the "pushed only after registration" ordering. -/
theorem scope_pushed_before_registration :
    traceOf [Blk.ctor 0 [7]] = [Ev.push 0, Ev.register 0 7, Ev.ctorRet 0] ∧
    validBlks [Blk.ctor 0 [7]] [] = true ∧
    stackOf ((traceOf [Blk.ctor 0 [7]]).take 1) = [0] ∧
    specStack ((traceOf [Blk.ctor 0 [7]]).take 1) = [] := by
  refine ⟨by decide, by decide, by decide, by decide⟩

/-- C9: popping the tail scope removes exactly the tail entry; destroying
three scopes constructed as `a, b, c` in the order `c, b, a` empties the
stack; and every other destruction order of the three fails with the
mismatched-scope error at the first offending destruction. -/
theorem scope_stack_lifo :
    (∀ (l : List Nat) (s : Nat), popScope (l ++ [s]) s = .ok l) ∧
    (∀ a b c : Nat, popSeq [a, b, c] [c, b, a] = .ok []) ∧
    (∀ (a b c : Nat) (order : List Nat), order.Perm [a, b, c] → order ≠ [c, b, a] →
      popSeq [a, b, c] order = .error .mismatched) := by
  refine ⟨?_, ?_, ?_⟩
  · intro l s
    rw [popScope, if_neg (by simp), if_pos (List.getLast?_concat l), List.dropLast_concat]
  · intro a b c
    have p1 : popScope [a, b, c] c = .ok [a, b] := by
      rw [popScope, if_neg (by simp),
        if_pos (show ([a, b, c] : List Nat).getLast? = some c from rfl)]
      rfl
    have p2 : popScope [a, b] b = .ok [a] := by
      rw [popScope, if_neg (by simp),
        if_pos (show ([a, b] : List Nat).getLast? = some b from rfl)]
      rfl
    have p3 : popScope [a] a = .ok [] := by
      rw [popScope, if_neg (by simp),
        if_pos (show ([a] : List Nat).getLast? = some a from rfl)]
      rfl
    rw [popSeq, p1]
    show popSeq [a, b] [b, a] = Except.ok []
    rw [popSeq, p2]
    show popSeq [a] [a] = Except.ok []
    rw [popSeq, p3]
    rfl
  · intro a b c order hperm hne
    cases order with
    | nil =>
      have hlen := hperm.length_eq
      simp at hlen
    | cons x rest =>
      by_cases hx : x = c
      · have hpop : popScope [a, b, c] x = .ok [a, b] := by
          rw [popScope, if_neg (by simp),
            if_pos (show ([a, b, c] : List Nat).getLast? = some x by rw [hx]; rfl)]
          rfl
        have hrest : rest.Perm [a, b] := by
          have hp1 : ([a, b] ++ [c]).Perm (c :: [a, b]) := List.perm_append_singleton c [a, b]
          have hperm' : (c :: rest).Perm [a, b, c] := hx ▸ hperm
          exact (hperm'.trans hp1).cons_inv
        rw [popSeq, hpop]
        show popSeq [a, b] rest = Except.error Err.mismatched
        cases rest with
        | nil =>
          have hlen := hrest.length_eq
          simp at hlen
        | cons y rest2 =>
          by_cases hy : y = b
          · have hrest2 : rest2.Perm [a] := by
              have hp1 : ([a] ++ [b]).Perm (b :: [a]) := List.perm_append_singleton b [a]
              have hrest' : (b :: rest2).Perm [a, b] := hy ▸ hrest
              exact (hrest'.trans hp1).cons_inv
            have hr2 : rest2 = [a] := List.perm_singleton.mp hrest2
            exact absurd (by rw [hx, hy, hr2] : x :: y :: rest2 = [c, b, a]) hne
          · have hpop2 : popScope [a, b] y = .error .mismatched := by
              rw [popScope, if_neg (by simp)]
              have hcond : ¬ (([a, b] : List Nat).getLast? = some y) := by
                rw [show ([a, b] : List Nat).getLast? = some b from rfl]
                intro hh
                exact hy (Option.some.inj hh).symm
              rw [if_neg hcond]
            rw [popSeq, hpop2]
      · have hpop : popScope [a, b, c] x = .error .mismatched := by
          rw [popScope, if_neg (by simp)]
          have hcond : ¬ (([a, b, c] : List Nat).getLast? = some x) := by
            rw [show ([a, b, c] : List Nat).getLast? = some c from rfl]
            intro hh
            exact hx (Option.some.inj hh).symm
          rw [if_neg hcond]
        rw [popSeq, hpop]

theorem scope_stack_lifo_witness :
    popScope ([0, 1] ++ [2]) 2 = .ok [0, 1] ∧
    popSeq [0, 1, 2] [2, 1, 0] = .ok [] ∧
    ([0, 1, 2] : List Nat).Perm [0, 1, 2] ∧
    ([0, 1, 2] : List Nat) ≠ [2, 1, 0] ∧
    popSeq [0, 1, 2] [0, 1, 2] = .error .mismatched :=
  ⟨scope_stack_lifo.1 [0, 1] 2,
    scope_stack_lifo.2.1 0 1 2,
    by decide, by decide,
    scope_stack_lifo.2.2 0 1 2 [0, 1, 2] (by decide) (by decide)⟩

/-- C10: a scope constructed from zero binding tables is still constructed
and pushed onto the ambient stack, its impls map is empty, and every
resolution against it — under any tag, the exclusive one included — fails
with the unbound-service error, leaving the state unchanged. -/
theorem empty_scope_ok :
    scopeImpls ([] : List (Table ImplData)) = [] ∧
    (∀ (fuel i : Nat) (tag : Tag),
      getService (fuel + 1) (mkScopeState []) i tag = (.error .unbound, mkScopeState [])) ∧
    (∀ s : Nat, stackOf (traceOf [Blk.ctor s []]) = [s]) := by
  refine ⟨rfl, ?_, ?_⟩
  · intro fuel i tag
    rw [getService, show lookupA (mkScopeState []).serviceImpls i = none from rfl]
  · intro s
    rfl

end DI
